import Mathlib

/-!
Shallow embedding of the question-extraction engine of `src/parser.py`
(repository `voiceAssistant`), together with theorems checking the
natural-language specification against it.

Strings are modelled by Lean `String` (a wrapper around `List Char`);
Python's regex character classes are modelled over ASCII, which is the
alphabet actually exercised by the program's patterns and blocklist.
-/

set_option maxHeartbeats 1000000

/-- ASCII whitespace, modelling the whitespace character class used by
Python's `str.strip` and regexes (`' '`, `\t`, `\n`, `\r`, vertical tab,
form feed). -/
def isPySpace (c : Char) : Bool :=
  c = ' ' || c = '\t' || c = '\n' || c = '\r' || c = Char.ofNat 11 || c = Char.ofNat 12

/-- Python regex word characters (ASCII model): letters, digits, underscore. -/
def isWordChar (c : Char) : Bool := c.isAlphanum || c = '_'

/-- `str.strip()`: drop leading and trailing whitespace of a character list. -/
def pyStrip (l : List Char) : List Char :=
  ((l.dropWhile isPySpace).reverse.dropWhile isPySpace).reverse

/-- The substitution in `clean_line`: collapse every maximal whitespace run to a
single space.  The flag records whether the previous character was whitespace. -/
def collapseWS : Bool → List Char → List Char
  | _, [] => []
  | prevSpace, c :: cs =>
    if isPySpace c then
      if prevSpace then collapseWS true cs else ' ' :: collapseWS true cs
    else c :: collapseWS false cs

/-- `clean_line` from parser.py: strip surrounding whitespace, then collapse
internal whitespace runs to single spaces. -/
def clean_line (s : String) : String := ⟨collapseWS false (pyStrip s.data)⟩

/-- Python's substring test `pat in l` on character lists. -/
def strContains : List Char → List Char → Bool
  | [], pat => pat.isEmpty
  | c :: t, pat => pat.isPrefixOf (c :: t) || strContains t pat

/-- `EXCLUDE_SUBSTRS` from parser.py. -/
def EXCLUDE_SUBSTRS : List String :=
  ["answer all questions", "name & signature", "department of data science",
   "max. marks", "time duration", "affiliated to", "college",
   "batch:", "class:", "subject title:", "semester:", "mid term", "reviewer"]

/-- `is_excluded` from parser.py: the lowercased line contains some blocklist
substring. -/
def is_excluded (line : String) : Bool :=
  EXCLUDE_SUBSTRS.any (fun key => strContains (line.data.map Char.toLower) key.data)

/-- `s.lower().startswith(p)` for a literal lowercase pattern `p`. -/
def lowerStartsWith (s p : String) : Bool :=
  p.data.isPrefixOf (s.data.map Char.toLower)

/-- The normalization loop at the start of `extract_questions`: clean each raw
line, keep it when it is non-empty and differs from the previous cleaned line. -/
def normAux : Option String → List String → List String
  | _, [] => []
  | prev, r :: rs =>
    if clean_line r ≠ "" ∧ some (clean_line r) ≠ prev then
      clean_line r :: normAux (some (clean_line r)) rs
    else normAux (some (clean_line r)) rs

/-- Full line normalization (`lines` built from `raw_lines` in parser.py). -/
def normalizeLines (raw : List String) : List String := normAux none raw

/-- Matching of `^(\d{1,2})\s+(.*)$` (Section-A opening with stem on the same
line), returning the digit group and the remainder after the greedy whitespace
run. -/
def matchNumStem (l : List Char) : Option (List Char × List Char) :=
  match l with
  | [] => none
  | c1 :: rest1 =>
    if c1.isDigit then
      match rest1 with
      | [] => none
      | c2 :: rest2 =>
        if c2.isDigit then
          match rest2 with
          | c3 :: _ =>
            if isPySpace c3 then some ([c1, c2], rest2.dropWhile isPySpace) else none
          | [] => none
        else if isPySpace c2 then some ([c1], rest1.dropWhile isPySpace)
        else none
    else none

/-- `re.fullmatch(r"\d{1,2}", line)`: the line is exactly one or two digits. -/
def isNum12 (l : List Char) : Bool :=
  match l with
  | [c] => c.isDigit
  | [c1, c2] => c1.isDigit && c2.isDigit
  | _ => false

/-- `re.match(r"^[ABCD]\b", line, re.I)`: the line opens with an option letter
followed by a word boundary. -/
def isOptionLine (l : List Char) : Bool :=
  match l with
  | [] => false
  | c :: rest =>
    (Char.toLower c = 'a' || Char.toLower c = 'b' ||
     Char.toLower c = 'c' || Char.toLower c = 'd') &&
      (match rest with
       | [] => true
       | d :: _ => !isWordChar d)

/-- The greedy `\d{1,2}` group of the Section-B/C opening pattern: the digit
characters consumed and the remainder. -/
def bcDigits (c1 : Char) (rest1 : List Char) : List Char × List Char :=
  match rest1 with
  | c2 :: rest2 => if c2.isDigit then ([c1, c2], rest2) else ([c1], rest1)
  | [] => ([c1], [])

/-- Matching of `^(\d{1,2})\s*([AB])?\s*(.*)$` (Section-B/C opening): digit
group, optional variant letter, remainder. -/
def matchBC (l : List Char) : Option (List Char × Option Char × List Char) :=
  match l with
  | [] => none
  | c1 :: rest1 =>
    if c1.isDigit then
      match (bcDigits c1 rest1).2.dropWhile isPySpace with
      | 'A' :: r3 => some ((bcDigits c1 rest1).1, some 'A', r3.dropWhile isPySpace)
      | 'B' :: r3 => some ((bcDigits c1 rest1).1, some 'B', r3.dropWhile isPySpace)
      | r2 => some ((bcDigits c1 rest1).1, none, r2)
    else none

/-- The stop condition of the Section-B/C block loop:
`re.match(r"^\d{1,2}\s*[AB]?", line)` (equivalently: the line starts with a
digit) or `line.lower().startswith("section")`. -/
def stopBC (l : String) : Bool :=
  (match l.data with | c :: _ => c.isDigit | [] => false) || lowerStartsWith l "section"

/-- Section-header detection at the top of the scan loop. -/
def headerOf (l : String) : Option String :=
  if lowerStartsWith l "section a" then some "A"
  else if lowerStartsWith l "section b" then some "B"
  else if lowerStartsWith l "section c" then some "C"
  else none

/-- The question records produced by `extract_questions`
(`{"section": ..., "label": ..., "text": ...}`). -/
structure Question where
  sec : String
  label : String
  text : String
deriving DecidableEq, Repr, Inhabited

/-- `lines[i][0].upper()` for an option line. -/
def optLetter (l : String) : Char := Char.toUpper (l.data.headD ' ')

/-- `lines[i][1:].strip()` for an option line. -/
def optValue (l : String) : String := ⟨pyStrip l.data.tail⟩

/-- The Section-A option loop: consume consecutive option lines, each updating
the letter-to-text mapping (overwriting on repeated letters); return the final
mapping together with the unconsumed suffix. -/
def collectOptions : (Char → Option String) → List String → (Char → Option String) × List String
  | opts, [] => (opts, [])
  | opts, l :: rest =>
    if isOptionLine l.data then
      collectOptions (fun c => if c = optLetter l then some (optValue l) else opts c) rest
    else (opts, l :: rest)

/-- Assembly of the Section-A question text: the stem followed by one line per
present letter, in the fixed order A, B, C, D. -/
def assembleText (stem : String) (opts : Char → Option String) : String :=
  [('A' : Char), 'B', 'C', 'D'].foldl
    (fun t c =>
      match opts c with
      | some v => t ++ "\n" ++ String.singleton c ++ ". " ++ v
      | none => t)
    stem

/-- The Section-A branch after the question number and stem are determined:
consume the option lines and emit the assembled question. -/
def sectionABranch (qnum stem : String) (ls : List String) : Question × List String :=
  let r := collectOptions (fun _ => none) ls
  ({sec := "A", label := qnum, text := assembleText stem r.1}, r.2)

/-- The Section-B/C block loop: accumulate body lines until a stop line, end of
input; `"(OR)"` lines and blocklisted lines are dropped, a bare `"A"`/`"B"`
line while the body is still empty replaces the variant, anything else is
appended to the body.  Returns the final variant, body lines, and suffix. -/
def collectBlock : String → List String → List String → String × List String × List String
  | ab, block, [] => (ab, block, [])
  | ab, block, l :: rest =>
    if stopBC l then (ab, block, l :: rest)
    else if is_excluded l = false ∧ l ≠ "(OR)" then
      if (l = "A" ∨ l = "B") ∧ block = [] then collectBlock l block rest
      else collectBlock ab (block ++ [l]) rest
    else collectBlock ab block rest

/-- `ab = ab or ""` after the Section-B/C opening match. -/
def abToString : Option Char → String
  | some c => String.singleton c
  | none => ""

/-- `block = [rest] if rest else []` after the Section-B/C opening match. -/
def initBlock (rest : List Char) : List String :=
  if rest = [] then [] else [⟨rest⟩]

/-- One iteration of the main `while` loop of `extract_questions`; `recur` is
the continuation for the next iteration (section state, remaining lines). -/
def scanStep (recur : Option String → List String → List Question)
    (sec : Option String) (line : String) (rest : List String) : List Question :=
  match headerOf line with
  | some s => recur (some s) rest
  | none =>
    match sec with
    | none => recur none rest
    | some s =>
      if is_excluded line then recur (some s) rest
      else if s = "A" then
        match matchNumStem line.data with
        | some ns =>
          (sectionABranch ⟨ns.1⟩ ⟨ns.2⟩ rest).1 ::
            recur (some s) (sectionABranch ⟨ns.1⟩ ⟨ns.2⟩ rest).2
        | none =>
          if isNum12 line.data then
            match rest with
            | [] => (sectionABranch line "" []).1 :: recur (some s) (sectionABranch line "" []).2
            | nxt :: rest2 =>
              if isOptionLine nxt.data then
                (sectionABranch line "" rest).1 ::
                  recur (some s) (sectionABranch line "" rest).2
              else
                (sectionABranch line ⟨pyStrip nxt.data⟩ rest2).1 ::
                  recur (some s) (sectionABranch line ⟨pyStrip nxt.data⟩ rest2).2
          else recur (some s) rest
      else if s = "B" ∨ s = "C" then
        match matchBC line.data with
        | some dab =>
          { sec := s,
            label := ⟨pyStrip (dab.1 ++ ' ' ::
              (collectBlock (abToString dab.2.1) (initBlock dab.2.2) rest).1.data)⟩,
            text := String.intercalate " "
              (collectBlock (abToString dab.2.1) (initBlock dab.2.2) rest).2.1 } ::
            recur (some s) (collectBlock (abToString dab.2.1) (initBlock dab.2.2) rest).2.2
        | none => recur (some s) rest
      else recur (some s) rest

/-- The main `while` loop of `extract_questions`, with an explicit iteration
budget; since the cursor strictly advances, a budget of `ls.length` iterations
is enough (proved below). -/
def scanGo : Nat → Option String → List String → List Question
  | 0, _, _ => []
  | _ + 1, _, [] => []
  | fuel + 1, sec, line :: rest => scanStep (scanGo fuel) sec line rest

/-- The section scan of `extract_questions` over normalized lines. -/
def scanLines (sec : Option String) (ls : List String) : List Question :=
  scanGo ls.length sec ls

/-- `extract_questions` from parser.py, over the raw line sequence delivered by
the document reader (`get_all_text`). -/
def extract_questions (raw : List String) : List Question :=
  scanLines none (normalizeLines raw)

/-- `section_order` from `main` in parser.py: `{"A": 1, "B": 2, "C": 3}` with
default 99. -/
def section_order (s : String) : Nat :=
  if s = "A" then 1 else if s = "B" then 2 else if s = "C" then 3 else 99

/-- Decimal value of a digit string (`int` applied to the regex group). -/
def digitsVal (ds : List Char) : Nat :=
  ds.foldl (fun acc c => acc * 10 + (c.toNat - 48)) 0

/-- The leading integer of a label per `re.match(r"^\s*(\d+)", label)`,
defaulting to 9999 when the label does not open with a number. -/
def leadingNum (label : String) : Nat :=
  let ds := (label.data.dropWhile isPySpace).takeWhile Char.isDigit
  if ds = [] then 9999 else digitsVal ds

/-- `sort_key` from `main` in parser.py. -/
def sort_key (q : Question) : Nat × Nat × String :=
  (section_order q.sec, leadingNum q.label, ⟨pyStrip q.label.data⟩)

/-- Lexicographic less-or-equal on character lists, modelling Python's string
comparison by code points. -/
def charListLe : List Char → List Char → Bool
  | [], _ => true
  | _ :: _, [] => false
  | a :: as, b :: bs => if a < b then true else if b < a then false else charListLe as bs

/-- Lexicographic less-or-equal on sort keys, modelling Python's tuple
comparison. -/
def keyLe (x y : Nat × Nat × String) : Bool :=
  decide (x.1 < y.1) ||
    (decide (x.1 = y.1) &&
      (decide (x.2.1 < y.2.1) ||
        (decide (x.2.1 = y.2.1) && charListLe x.2.2.data y.2.2.data)))

/-- Comparison of questions by `sort_key`. -/
def qLe (a b : Question) : Bool := keyLe (sort_key a) (sort_key b)

/-- `sorted(questions, key=sort_key)` from `main` in parser.py: Python's
`sorted` is a stable ascending sort, modelled by stable merge sort. -/
def sortQuestions (qs : List Question) : List Question := qs.mergeSort qLe

theorem charListLe_refl : ∀ l, charListLe l l = true := by
  intro l
  induction l with
  | nil => rfl
  | cons a as ih => simp [charListLe, lt_self_iff_false, ih]

theorem charListLe_total : ∀ l1 l2, charListLe l1 l2 = true ∨ charListLe l2 l1 = true := by
  intro l1
  induction l1 with
  | nil => intro l2; left; rfl
  | cons a as ih =>
    intro l2
    cases l2 with
    | nil => right; rfl
    | cons b bs =>
      rcases lt_trichotomy a b with h | h | h
      · left; simp [charListLe, h]
      · subst h
        rcases ih bs with h2 | h2
        · left; simp [charListLe, lt_self_iff_false, h2]
        · right; simp [charListLe, lt_self_iff_false, h2]
      · right; simp [charListLe, h]

theorem charListLe_trans :
    ∀ l1 l2 l3, charListLe l1 l2 = true → charListLe l2 l3 = true →
      charListLe l1 l3 = true := by
  intro l1
  induction l1 with
  | nil => intro l2 l3 _ _; rfl
  | cons a as ih =>
    intro l2 l3 h12 h23
    cases l2 with
    | nil => simp [charListLe] at h12
    | cons b bs =>
      cases l3 with
      | nil => simp [charListLe] at h23
      | cons c cs =>
        by_cases hab : a < b
        · by_cases hbc : b < c
          · simp [charListLe, lt_trans hab hbc]
          · by_cases hcb : c < b
            · simp [charListLe, hbc, hcb] at h23
            · have hbceq : b = c := le_antisymm (not_lt.mp hcb) (not_lt.mp hbc)
              subst hbceq
              simp [charListLe, hab]
        · by_cases hba : b < a
          · simp [charListLe, hab, hba] at h12
          · have habeq : a = b := le_antisymm (not_lt.mp hba) (not_lt.mp hab)
            subst habeq
            simp only [charListLe, lt_self_iff_false, if_false] at h12
            by_cases hac : a < c
            · simp [charListLe, hac]
            · by_cases hca : c < a
              · simp [charListLe, hac, hca] at h23
              · have haceq : a = c := le_antisymm (not_lt.mp hca) (not_lt.mp hac)
                subst haceq
                simp only [charListLe, lt_self_iff_false, if_false] at h23 ⊢
                exact ih bs cs h12 h23

theorem keyLe_refl (k : Nat × Nat × String) : keyLe k k = true := by
  simp [keyLe, charListLe_refl]

theorem keyLe_trans :
    ∀ x y z, keyLe x y = true → keyLe y z = true → keyLe x z = true := by
  intro x y z hxy hyz
  simp only [keyLe, Bool.or_eq_true, Bool.and_eq_true, decide_eq_true_eq] at hxy hyz ⊢
  rcases hxy with h1 | ⟨e1, hxy2⟩
  · rcases hyz with h2 | ⟨e2, _⟩
    · exact Or.inl (by omega)
    · exact Or.inl (by omega)
  · rcases hyz with h2 | ⟨e2, hyz2⟩
    · exact Or.inl (by omega)
    · refine Or.inr ⟨by omega, ?_⟩
      rcases hxy2 with g1 | ⟨f1, hxy3⟩
      · rcases hyz2 with g2 | ⟨f2, _⟩
        · exact Or.inl (by omega)
        · exact Or.inl (by omega)
      · rcases hyz2 with g2 | ⟨f2, hyz3⟩
        · exact Or.inl (by omega)
        · exact Or.inr ⟨by omega, charListLe_trans _ _ _ hxy3 hyz3⟩

theorem keyLe_total : ∀ x y, (keyLe x y || keyLe y x) = true := by
  intro x y
  simp only [keyLe, Bool.or_eq_true, Bool.and_eq_true, decide_eq_true_eq]
  rcases Nat.lt_trichotomy x.1 y.1 with h | h | h
  · exact Or.inl (Or.inl h)
  · rcases Nat.lt_trichotomy x.2.1 y.2.1 with g | g | g
    · exact Or.inl (Or.inr ⟨h, Or.inl g⟩)
    · rcases charListLe_total x.2.2.data y.2.2.data with c | c
      · exact Or.inl (Or.inr ⟨h, Or.inr ⟨g, c⟩⟩)
      · exact Or.inr (Or.inr ⟨h.symm, Or.inr ⟨g.symm, c⟩⟩)
    · exact Or.inr (Or.inr ⟨h.symm, Or.inl g⟩)
  · exact Or.inr (Or.inl h)

theorem qLe_trans : ∀ a b c : Question, qLe a b → qLe b c → qLe a c :=
  fun _ _ _ h1 h2 => keyLe_trans _ _ _ h1 h2

theorem qLe_total : ∀ a b : Question, (qLe a b || qLe b a) = true :=
  fun a b => keyLe_total (sort_key a) (sort_key b)

theorem collectOptions_snd : ∀ (opts : Char → Option String) (ls : List String),
    (collectOptions opts ls).2 = ls.dropWhile (fun l => isOptionLine l.data) := by
  intro opts ls
  induction ls generalizing opts with
  | nil => rfl
  | cons l rest ih =>
    by_cases hl : isOptionLine l.data
    · simp [collectOptions, hl, List.dropWhile_cons, ih]
    · simp [collectOptions, hl, List.dropWhile_cons]

theorem sectionABranch_len (qnum stem : String) (ls : List String) :
    ((sectionABranch qnum stem ls).2).length ≤ ls.length := by
  simp only [sectionABranch, collectOptions_snd]
  exact (List.dropWhile_sublist _).length_le

theorem collectBlock_len : ∀ (ab : String) (block ls : List String),
    ((collectBlock ab block ls).2.2).length ≤ ls.length := by
  intro ab block ls
  induction ls generalizing ab block with
  | nil => simp [collectBlock]
  | cons l rest ih =>
    unfold collectBlock
    split
    · simp
    · split
      · split
        · exact Nat.le_trans (ih _ _) (by simp)
        · exact Nat.le_trans (ih _ _) (by simp)
      · exact Nat.le_trans (ih _ _) (by simp)

theorem scanStep_congr (f g : Option String → List String → List Question)
    (sec : Option String) (line : String) (rest : List String)
    (h : ∀ sec' suf, suf.length ≤ rest.length → f sec' suf = g sec' suf) :
    scanStep f sec line rest = scanStep g sec line rest := by
  unfold scanStep
  split
  · exact h _ _ le_rfl
  · split
    · exact h _ _ le_rfl
    · split
      · exact h _ _ le_rfl
      · split
        · split
          · rw [h _ _ (sectionABranch_len _ _ _)]
          · split
            · split
              · rw [h _ _ (Nat.le_trans (sectionABranch_len _ _ _) (Nat.zero_le _))]
              · split
                · rw [h _ _ (sectionABranch_len _ _ _)]
                · rw [h _ _ (Nat.le_trans (sectionABranch_len _ _ _) (by simp))]
            · exact h _ _ le_rfl
        · split
          · split
            · rw [h _ _ (collectBlock_len _ _ _)]
            · exact h _ _ le_rfl
          · exact h _ _ le_rfl

theorem scanGo_eq : ∀ (f1 f2 : Nat) (sec : Option String) (ls : List String),
    ls.length ≤ f1 → ls.length ≤ f2 → scanGo f1 sec ls = scanGo f2 sec ls := by
  intro f1
  induction f1 with
  | zero =>
    intro f2 sec ls h1 _
    have hls : ls = [] := List.length_eq_zero.mp (Nat.le_zero.mp h1)
    subst hls
    cases f2 <;> rfl
  | succ f1 ih =>
    intro f2 sec ls h1 h2
    cases ls with
    | nil => cases f2 <;> rfl
    | cons line rest =>
      cases f2 with
      | zero => simp at h2
      | succ f2' =>
        show scanStep (scanGo f1) sec line rest = scanStep (scanGo f2') sec line rest
        apply scanStep_congr
        intro sec' suf hsuf
        simp only [List.length_cons] at h1 h2
        exact ih f2' sec' suf (Nat.le_trans hsuf (by omega)) (Nat.le_trans hsuf (by omega))

theorem scanLines_nil (sec : Option String) : scanLines sec [] = [] := rfl

theorem scanLines_cons (sec : Option String) (line : String) (rest : List String) :
    scanLines sec (line :: rest) = scanStep scanLines sec line rest := by
  show scanStep (scanGo rest.length) sec line rest = scanStep scanLines sec line rest
  apply scanStep_congr
  intro sec' suf hsuf
  exact scanGo_eq rest.length suf.length sec' suf hsuf le_rfl

theorem digit_not_space (c : Char) (h : c.isDigit = true) : isPySpace c = false := by
  by_contra hne
  have hs : isPySpace c = true := by revert hne; cases isPySpace c <;> simp
  simp only [isPySpace, Bool.or_eq_true, decide_eq_true_eq] at hs
  rcases hs with ((((h1 | h1) | h1) | h1) | h1) | h1 <;> subst h1 <;> exact absurd h (by decide)

theorem dropWhile_concat_ne_nil (p : Char → Bool) (c : Char) (hc : p c = false) :
    ∀ m : List Char, List.dropWhile p (m ++ [c]) ≠ [] := by
  intro m
  induction m with
  | nil => simp [List.dropWhile_cons, hc]
  | cons a m ih =>
    by_cases ha : p a
    · simpa [List.dropWhile_cons, ha] using ih
    · simp [List.dropWhile_cons, ha]

theorem pyStrip_cons_ne_nil (c : Char) (l : List Char) (hc : isPySpace c = false) :
    pyStrip (c :: l) ≠ [] := by
  unfold pyStrip
  rw [List.dropWhile_cons, if_neg (by simp [hc])]
  simp only [List.reverse_cons]
  intro h
  have h2 : List.dropWhile isPySpace (l.reverse ++ [c]) = [] := by
    simpa using congrArg List.reverse h
  exact dropWhile_concat_ne_nil isPySpace c hc l.reverse h2

theorem mkStr_ne_empty {cs : List Char} (h : cs ≠ []) : (⟨cs⟩ : String) ≠ "" := by
  intro he
  exact h (by simpa using congrArg String.data he)

theorem str_ne_empty_of_data {s : String} (h : s.data ≠ []) : s ≠ "" := by
  intro he
  exact h (by simpa using congrArg String.data he)

theorem matchNumStem_fst_ne_nil :
    ∀ (l : List Char) (ns : List Char × List Char),
      matchNumStem l = some ns → ns.1 ≠ [] := by
  intro l ns h
  cases l with
  | nil => simp [matchNumStem] at h
  | cons c1 rest1 =>
    by_cases h1 : c1.isDigit
    · unfold matchNumStem at h
      simp only [h1, if_true] at h
      cases rest1 with
      | nil => simp at h
      | cons c2 rest2 =>
        by_cases h2 : c2.isDigit
        · simp only [h2, if_true] at h
          cases rest2 with
          | nil => simp at h
          | cons c3 r =>
            by_cases h3 : isPySpace c3
            · simp only [h3, if_true] at h
              obtain rfl : ns = ([c1, c2], (c3 :: r).dropWhile isPySpace) := by
                simpa using h.symm
              simp
            · simp [h3] at h
        · by_cases h2s : isPySpace c2
          · simp only [h2, if_false, Bool.false_eq_true, h2s, if_true] at h
            obtain rfl : ns = ([c1], (c2 :: rest2).dropWhile isPySpace) := by
              simpa using h.symm
            simp
          · simp [h2, h2s] at h
    · simp [matchNumStem, h1] at h

theorem isNum12_ne_nil (l : List Char) (h : isNum12 l = true) : l ≠ [] := by
  intro he
  subst he
  simp [isNum12] at h

theorem bcDigits_fst (c1 : Char) (rest1 : List Char) :
    ∃ cs, (bcDigits c1 rest1).1 = c1 :: cs := by
  cases rest1 with
  | nil => exact ⟨[], rfl⟩
  | cons c2 rest2 =>
    by_cases h2 : c2.isDigit
    · exact ⟨[c2], by simp [bcDigits, h2]⟩
    · exact ⟨[], by simp [bcDigits, h2]⟩

theorem matchBC_fst :
    ∀ (l : List Char) (dab : List Char × Option Char × List Char),
      matchBC l = some dab → ∃ c cs, dab.1 = c :: cs ∧ c.isDigit = true := by
  intro l dab h
  cases l with
  | nil => simp [matchBC] at h
  | cons c1 rest1 =>
    by_cases h1 : c1.isDigit
    · obtain ⟨cs, hcs⟩ := bcDigits_fst c1 rest1
      unfold matchBC at h
      simp only [h1, if_true] at h
      split at h <;>
        (have hd : dab.1 = (bcDigits c1 rest1).1 := by
          have := congrArg (fun o => (Option.map Prod.fst o).getD []) h.symm
          simpa using this) <;>
        exact ⟨c1, cs, by rw [hd, hcs], h1⟩
    · simp [matchBC, h1] at h

theorem scan_labels_ne :
    ∀ (n : Nat) (ls : List String) (sec : Option String) (q : Question),
      ls.length ≤ n → q ∈ scanLines sec ls → q.label ≠ "" := by
  intro n
  induction n with
  | zero =>
    intro ls sec q hlen hq
    have hls : ls = [] := List.length_eq_zero.mp (Nat.le_zero.mp hlen)
    subst hls
    simp [scanLines_nil] at hq
  | succ n ih =>
    intro ls sec q hlen hq
    cases ls with
    | nil => simp [scanLines_nil] at hq
    | cons line rest =>
      simp only [List.length_cons] at hlen
      have hb : ∀ (sec' : Option String) (suf : List String),
          suf.length ≤ rest.length → q ∈ scanLines sec' suf → q.label ≠ "" :=
        fun sec' suf hs => ih suf sec' q (by omega)
      rw [scanLines_cons] at hq
      unfold scanStep at hq
      split at hq
      · exact hb _ _ le_rfl hq
      · split at hq
        · exact hb _ _ le_rfl hq
        · split at hq
          · exact hb _ _ le_rfl hq
          · split at hq
            · split at hq
              · rename_i ns hns
                rcases List.mem_cons.mp hq with hq1 | hq2
                · rw [hq1]
                  refine mkStr_ne_empty ?_
                  exact matchNumStem_fst_ne_nil _ _ hns
                · exact hb _ _ (sectionABranch_len _ _ _) hq2
              · split at hq
                · rename_i hnum
                  split at hq
                  · rcases List.mem_cons.mp hq with hq1 | hq2
                    · rw [hq1]
                      exact str_ne_empty_of_data (isNum12_ne_nil _ hnum)
                    · exact hb _ _ (Nat.le_trans (sectionABranch_len _ _ _) (Nat.zero_le _)) hq2
                  · split at hq
                    · rcases List.mem_cons.mp hq with hq1 | hq2
                      · rw [hq1]
                        exact str_ne_empty_of_data (isNum12_ne_nil _ hnum)
                      · exact hb _ _ (sectionABranch_len _ _ _) hq2
                    · rcases List.mem_cons.mp hq with hq1 | hq2
                      · rw [hq1]
                        exact str_ne_empty_of_data (isNum12_ne_nil _ hnum)
                      · exact hb _ _ (Nat.le_trans (sectionABranch_len _ _ _) (by simp)) hq2
                · exact hb _ _ le_rfl hq
            · split at hq
              · split at hq
                · rename_i dab hdab
                  rcases List.mem_cons.mp hq with hq1 | hq2
                  · rw [hq1]
                    refine mkStr_ne_empty ?_
                    obtain ⟨c, cs, hc, hcd⟩ := matchBC_fst _ _ hdab
                    rw [hc]
                    simp only [List.cons_append]
                    exact pyStrip_cons_ne_nil c _ (digit_not_space c hcd)
                  · exact hb _ _ (collectBlock_len _ _ _) hq2
                · exact hb _ _ le_rfl hq
              · exact hb _ _ le_rfl hq

/-- C1, counterexample: on input `["Section A", "5"]` (a bare question number
with no stem and no options) the code emits a Question whose `text` is the
empty string, so the claimed invariant "`text` is non-empty for every emitted
Question" is false. -/
theorem C1_counterexample :
    extract_questions ["Section A", "5"] = [⟨"A", "5", ""⟩] ∧
    (⟨"A", "5", ""⟩ : Question).text = "" := by
  exact ⟨by decide, rfl⟩

/-- C1, amended: every Question emitted by `extract_questions` has a non-empty
`label`; the `text` field may be empty (e.g. for a bare question number with no
stem, body, or options). -/
theorem C1_label_nonempty (raw : List String) (q : Question)
    (hq : q ∈ extract_questions raw) : q.label ≠ "" :=
  scan_labels_ne (normalizeLines raw).length (normalizeLines raw) none q le_rfl hq

/-- Witness for C1_label_nonempty at a concrete input. -/
theorem C1_witness :
    (⟨"A", "5", ""⟩ : Question) ∈ extract_questions ["Section A", "5"] ∧
    (⟨"A", "5", ""⟩ : Question).label ≠ "" :=
  ⟨by decide, C1_label_nonempty ["Section A", "5"] ⟨"A", "5", ""⟩ (by decide)⟩

/-- C2, counterexample: the line `"1 Define max. marks"` inside Section A
matches the question-opening shape and contains the blocklist substring
`"max. marks"`; contrary to the claim, the Noise Filter is applied to it at the
top of the scan loop, so it is skipped and no question at all is emitted. -/
theorem C2_counterexample :
    is_excluded "1 Define max. marks" = true ∧
    (matchNumStem "1 Define max. marks".data).isSome = true ∧
    extract_questions ["Section A", "1 Define max. marks", "A x"] = [] := by
  exact ⟨by decide, by decide, by decide⟩

/-- C2, amended: the Noise Filter is applied to every non-header line examined
at the top of the scan loop, in every section state (including Section A, whose
opening lines it can therefore suppress); a blocklisted line there is always
skipped. -/
theorem C2_filter_all_sections (sec : Option String) (line : String)
    (rest : List String) (h1 : headerOf line = none) (h2 : is_excluded line = true) :
    scanLines sec (line :: rest) = scanLines sec rest := by
  rw [scanLines_cons]
  unfold scanStep
  split
  · rename_i s hs
    rw [h1] at hs
    exact absurd hs (by simp)
  · split
    · rfl
    · rw [if_pos h2]

/-- Witness for C2_filter_all_sections at a concrete input. -/
theorem C2_witness :
    headerOf "Batch: 2023" = none ∧ is_excluded "Batch: 2023" = true ∧
    scanLines (some "A") ["Batch: 2023", "2 x"] = scanLines (some "A") ["2 x"] :=
  ⟨by decide, by decide,
    C2_filter_all_sections (some "A") "Batch: 2023" ["2 x"] (by decide) (by decide)⟩

/-- C3, counterexample: on input `["Section B", "7 A", "B", "something"]` the
opening line sets the variant to `"A"`, yet the deferred label line `"B"`
overwrites it (the code tests only whether the body is still empty, not whether
the variant is unset), so the emitted label is `"7 B"`, not `"7 A"`. -/
theorem C3_counterexample :
    extract_questions ["Section B", "7 A", "B", "something"] =
      [⟨"B", "7 B", "something"⟩] ∧
    (⟨"B", "7 B", "something"⟩ : Question).label ≠ "7 A" := by
  exact ⟨by decide, by decide⟩

/-- C3, amended: in the Section-B/C block loop, a line that is exactly `"A"` or
`"B"` encountered while the block body is still empty sets the variant label
unconditionally, overwriting any variant already taken from the opening line;
only once body content exists is such a line appended as body text. -/
theorem C3_deferred_overwrites (ab l : String) (rest : List String)
    (h : l = "A" ∨ l = "B") :
    collectBlock ab [] (l :: rest) = collectBlock l [] rest := by
  rcases h with rfl | rfl
  · unfold collectBlock
    rw [if_neg (by decide), if_pos (by decide), if_pos (by decide)]
    exact collectBlock.eq_def _ _ _
  · unfold collectBlock
    rw [if_neg (by decide), if_pos (by decide), if_pos (by decide)]
    exact collectBlock.eq_def _ _ _

/-- Witness for C3_deferred_overwrites at a concrete input. -/
theorem C3_witness :
    (("B" : String) = "A" ∨ ("B" : String) = "B") ∧
    collectBlock "A" [] ["B", "x"] = collectBlock "B" [] ["x"] :=
  ⟨Or.inr rfl, C3_deferred_overwrites "A" "B" ["x"] (Or.inr rfl)⟩

/-- C5, counterexample: on input `["Section B", "5 (OR)"]` the opening line's
trailing text is exactly `"(OR)"` and is carried into the body verbatim, so the
emitted Section-B question's body does contain an occurrence of the literal
`"(OR)"` marker, contrary to the claim. -/
theorem C5_counterexample :
    extract_questions ["Section B", "5 (OR)"] = [⟨"B", "5", "(OR)"⟩] ∧
    strContains (⟨"B", "5", "(OR)"⟩ : Question).text.data "(OR)".data = true := by
  exact ⟨by decide, by decide⟩

/-- C5, amended: in the Section-B/C block loop, every line accumulated into the
block body beyond those already present (in particular beyond the opening
line's trailing text) is neither the literal `"(OR)"` nor a Noise-Filter match;
the opening line's trailing text is carried verbatim, so the joined body can
still contain `"(OR)"` embedded in it. -/
theorem C5_block_lines_clean :
    ∀ (ab : String) (block ls : List String) (b : String),
      b ∈ (collectBlock ab block ls).2.1 →
      b ∈ block ∨ (is_excluded b = false ∧ b ≠ "(OR)") := by
  intro ab block ls
  induction ls generalizing ab block with
  | nil =>
    intro b hb
    simp only [collectBlock] at hb
    exact Or.inl hb
  | cons l rest ih =>
    intro b hb
    unfold collectBlock at hb
    split at hb
    · exact Or.inl hb
    · split at hb
      · rename_i hcond
        split at hb
        · exact ih _ _ _ hb
        · rcases ih _ _ _ hb with h | h
          · rcases List.mem_append.mp h with h1 | h1
            · exact Or.inl h1
            · right
              have hbl : b = l := by simpa using h1
              subst hbl
              exact hcond
          · exact Or.inr h
      · exact ih _ _ _ hb

/-- Witness for C5_block_lines_clean at a concrete input. -/
theorem C5_witness :
    ("hello" : String) ∈ (collectBlock "" [] ["hello"]).2.1 ∧
    (("hello" : String) ∈ ([] : List String) ∨
      (is_excluded "hello" = false ∧ ("hello" : String) ≠ "(OR)")) :=
  ⟨by decide, C5_block_lines_clean "" [] ["hello"] "hello" (by decide)⟩

/-- C8: the scanning loop of `extract_questions` is total — its cursor strictly
advances every iteration, so an iteration budget equal to the number of
remaining lines is always sufficient: running `scanGo` with any budget at least
the input length yields exactly `scanLines` (malformed lines are skipped, never
an error). -/
theorem C8_scan_total (fuel : Nat) (sec : Option String) (ls : List String)
    (h : ls.length ≤ fuel) : scanGo fuel sec ls = scanLines sec ls :=
  scanGo_eq fuel ls.length sec ls h le_rfl

/-- Witness for C8_scan_total at a concrete input. -/
theorem C8_witness :
    (["Section A", "1 x", "A y"] : List String).length ≤ 10 ∧
    scanGo 10 none ["Section A", "1 x", "A y"] =
      scanLines none ["Section A", "1 x", "A y"] :=
  ⟨by decide, C8_scan_total 10 none ["Section A", "1 x", "A y"] (by decide)⟩

theorem collapseWS_false_cons_ne_nil (c : Char) (cs : List Char) :
    collapseWS false (c :: cs) ≠ [] := by
  unfold collapseWS
  by_cases h : isPySpace c <;> simp [h]

theorem normAux_mem : ∀ (prev : Option String) (rs : List String) (s : String),
    s ∈ normAux prev rs → ∃ r, r ∈ rs ∧ s = clean_line r := by
  intro prev rs
  induction rs generalizing prev with
  | nil => intro s hs; simp [normAux] at hs
  | cons r rs ih =>
    intro s hs
    unfold normAux at hs
    split at hs
    · rcases List.mem_cons.mp hs with h1 | h2
      · exact ⟨r, List.mem_cons_self r rs, h1⟩
      · obtain ⟨r', hr', hs'⟩ := ih _ _ h2
        exact ⟨r', List.mem_cons_of_mem r hr', hs'⟩
    · obtain ⟨r', hr', hs'⟩ := ih _ _ hs
      exact ⟨r', List.mem_cons_of_mem r hr', hs'⟩

theorem normAux_chain :
    ∀ (rs : List String) (p : String), (∀ r ∈ rs, clean_line r ≠ "") →
      List.Chain' (· ≠ ·) (p :: normAux (some p) rs) := by
  intro rs
  induction rs with
  | nil => intro p _; simp [normAux]
  | cons r rs ih =>
    intro p hne
    have hc : clean_line r ≠ "" := hne r (List.mem_cons_self r rs)
    have hne' : ∀ x ∈ rs, clean_line x ≠ "" := fun x hx => hne x (List.mem_cons_of_mem r hx)
    unfold normAux
    by_cases hcp : clean_line r = p
    · rw [if_neg (by simp [hcp])]
      rw [hcp]
      exact ih p hne'
    · rw [if_pos ⟨hc, by simp [hcp]⟩]
      exact List.chain'_cons.mpr ⟨Ne.symm hcp, ih (clean_line r) hne'⟩

/-- C7: once every raw entry is non-empty and carries no surrounding
whitespace, the normalized line sequence contains no empty string and no two
adjacent equal entries. -/
theorem C7_normalized_invariant (raw : List String)
    (h : ∀ r ∈ raw, r ≠ "" ∧ pyStrip r.data = r.data) :
    (∀ s ∈ normalizeLines raw, s ≠ "") ∧
      List.Chain' (· ≠ ·) (normalizeLines raw) := by
  have hne : ∀ r ∈ raw, clean_line r ≠ "" := by
    intro r hr
    obtain ⟨h1, h2⟩ := h r hr
    unfold clean_line
    rw [h2]
    cases hd : r.data with
    | nil =>
      exfalso
      apply h1
      cases r
      simp at hd
      simp [hd]
    | cons c cs => exact mkStr_ne_empty (collapseWS_false_cons_ne_nil c cs)
  constructor
  · intro s hs
    obtain ⟨r, hr, rfl⟩ := normAux_mem none raw s hs
    exact hne r hr
  · unfold normalizeLines
    cases raw with
    | nil => simp [normAux]
    | cons r rs =>
      unfold normAux
      rw [if_pos ⟨hne r (List.mem_cons_self r rs), by simp⟩]
      exact normAux_chain rs (clean_line r)
        (fun x hx => hne x (List.mem_cons_of_mem r hx))

/-- Witness for C7_normalized_invariant at a concrete input. -/
theorem C7_witness :
    (∀ r ∈ (["ab", "c d", "c d", "ab"] : List String), r ≠ "" ∧ pyStrip r.data = r.data) ∧
    ((∀ s ∈ normalizeLines ["ab", "c d", "c d", "ab"], s ≠ "") ∧
      List.Chain' (· ≠ ·) (normalizeLines ["ab", "c d", "c d", "ab"])) :=
  ⟨by decide, C7_normalized_invariant ["ab", "c d", "c d", "ab"] (by decide)⟩

theorem scan_none_no_header :
    ∀ ls : List String, (∀ l ∈ ls, headerOf l = none) → scanLines none ls = [] := by
  intro ls
  induction ls with
  | nil => intro _; exact scanLines_nil none
  | cons line rest ih =>
    intro h
    rw [scanLines_cons]
    unfold scanStep
    split
    · rename_i s hs
      rw [h line (List.mem_cons_self line rest)] at hs
      exact absurd hs (by simp)
    · exact ih (fun l hl => h l (List.mem_cons_of_mem line hl))

/-- C9, counterexample: the raw line `"Section  A"` (two internal spaces) does
not lowercase-start with `"section a"`, `"section b"`, or `"section c"`, and
nor does any other line of the input, yet normalization collapses the double
space so the scan recognizes a Section-A header and emits a question. -/
theorem C9_counterexample :
    lowerStartsWith "Section  A" "section a" = false ∧
    lowerStartsWith "Section  A" "section b" = false ∧
    lowerStartsWith "Section  A" "section c" = false ∧
    lowerStartsWith "1 x" "section a" = false ∧
    lowerStartsWith "1 x" "section b" = false ∧
    lowerStartsWith "1 x" "section c" = false ∧
    lowerStartsWith "A y" "section a" = false ∧
    lowerStartsWith "A y" "section b" = false ∧
    lowerStartsWith "A y" "section c" = false ∧
    extract_questions ["Section  A", "1 x", "A y"] = [⟨"A", "1", "x\nA. y"⟩] := by
  refine ⟨?_, ?_, ?_, ?_, ?_, ?_, ?_, ?_, ?_, ?_⟩ <;> decide

/-- C9, amended: if no input line's cleaned form (whitespace collapsed and
trimmed) lowercase-starts with `"section a"`, `"section b"`, or `"section c"`,
then `extract_questions` returns the empty sequence. -/
theorem C9_no_header_empty (raw : List String)
    (h : ∀ r ∈ raw, headerOf (clean_line r) = none) :
    extract_questions raw = [] := by
  unfold extract_questions
  apply scan_none_no_header
  intro l hl
  obtain ⟨r, hr, rfl⟩ := normAux_mem none raw l hl
  exact h r hr

/-- Witness for C9_no_header_empty at a concrete input. -/
theorem C9_witness :
    (∀ r ∈ (["hello", "1 x", "A y"] : List String), headerOf (clean_line r) = none) ∧
    extract_questions ["hello", "1 x", "A y"] = [] :=
  ⟨by decide, C9_no_header_empty ["hello", "1 x", "A y"] (by decide)⟩

theorem isPrefixOf_false_of_head (xs ys : List Char) (x y : Char)
    (hx : xs.head? = some x) (hy : ys.head? = some y) (hxy : x ≠ y) :
    xs.isPrefixOf ys = false := by
  cases xs with
  | nil => simp at hx
  | cons a as =>
    cases ys with
    | nil => simp at hy
    | cons b bs =>
      simp only [List.head?_cons, Option.some.injEq] at hx hy
      subst hx
      subst hy
      simp [List.isPrefixOf, hxy]

theorem headerOf_not_s (s : String) (c : Char) (hc : s.data.head? = some c)
    (h : Char.toLower c ≠ 's') : headerOf s = none := by
  have hy : (s.data.map Char.toLower).head? = some (Char.toLower c) := by
    rw [List.head?_map, hc]; rfl
  have e1 : ("section a" : String).data.head? = some 's' := by decide
  have e2 : ("section b" : String).data.head? = some 's' := by decide
  have e3 : ("section c" : String).data.head? = some 's' := by decide
  unfold headerOf lowerStartsWith
  rw [isPrefixOf_false_of_head _ _ _ _ e1 hy (Ne.symm h),
      isPrefixOf_false_of_head _ _ _ _ e2 hy (Ne.symm h),
      isPrefixOf_false_of_head _ _ _ _ e3 hy (Ne.symm h)]
  rfl


theorem scanLines_BC_step (s line : String) (rest : List String)
    (dab : List Char × Option Char × List Char)
    (hs : s = "B" ∨ s = "C")
    (hh : headerOf line = none)
    (he : is_excluded line = false)
    (hm : matchBC line.data = some dab) :
    scanLines (some s) (line :: rest) =
      { sec := s,
        label := ⟨pyStrip (dab.1 ++ ' ' ::
          (collectBlock (abToString dab.2.1) (initBlock dab.2.2) rest).1.data)⟩,
        text := String.intercalate " "
          (collectBlock (abToString dab.2.1) (initBlock dab.2.2) rest).2.1 } ::
        scanLines (some s) (collectBlock (abToString dab.2.1) (initBlock dab.2.2) rest).2.2 := by
  rw [scanLines_cons]
  unfold scanStep
  rcases hs with rfl | rfl <;> simp [hh, he, hm]

/-- C10: in Section B/C, when the text right after the question number begins
with a capital `A` or `B` that is just the first letter of an ordinary word,
that letter is consumed as the either/or variant marker: the opening line whose
characters are `"12 "` followed by `v ∈ {A, B}` and then `c :: t` (with `c` not
whitespace) emits a Question with label `"12 " ++ v` and body `c :: t` — e.g.
`"12 Apples are red"` yields label `"12 A"` and body `"pples are red"`. -/
theorem C10_variant_eats_first_letter (v c : Char) (t : List Char)
    (hv : v = 'A' ∨ v = 'B') (hc : isPySpace c = false)
    (hexc : is_excluded ⟨'1' :: '2' :: ' ' :: v :: c :: t⟩ = false) :
    scanLines (some "B") [⟨'1' :: '2' :: ' ' :: v :: c :: t⟩] =
      [⟨"B", ⟨['1', '2', ' ', v]⟩, ⟨c :: t⟩⟩] := by
  rcases hv with rfl | rfl
  · have hm : matchBC (('1' :: '2' :: ' ' :: 'A' :: c :: t : List Char)) =
        some (['1', '2'], some 'A', c :: t) := by
      have e1 : isPySpace ' ' = true := by decide
      have e2 : isPySpace 'A' = false := by decide
      simp [matchBC, bcDigits, List.dropWhile_cons, hc, e1, e2]
    rw [scanLines_BC_step "B" _ [] (['1', '2'], some 'A', c :: t) (Or.inl rfl)
      (headerOf_not_s ⟨'1' :: '2' :: ' ' :: 'A' :: c :: t⟩ '1' rfl (by decide)) hexc hm]
    rfl
  · have hm : matchBC (('1' :: '2' :: ' ' :: 'B' :: c :: t : List Char)) =
        some (['1', '2'], some 'B', c :: t) := by
      have e1 : isPySpace ' ' = true := by decide
      have e2 : isPySpace 'B' = false := by decide
      simp [matchBC, bcDigits, List.dropWhile_cons, hc, e1, e2]
    rw [scanLines_BC_step "B" _ [] (['1', '2'], some 'B', c :: t) (Or.inl rfl)
      (headerOf_not_s ⟨'1' :: '2' :: ' ' :: 'B' :: c :: t⟩ '1' rfl (by decide)) hexc hm]
    rfl

/-- Witness for C10_variant_eats_first_letter at the concrete opening line
`"12 Apples are red"`. -/
theorem C10_witness :
    (('A' : Char) = 'A' ∨ ('A' : Char) = 'B') ∧
    isPySpace 'p' = false ∧
    is_excluded ⟨'1' :: '2' :: ' ' :: 'A' :: 'p' :: "ples are red".data⟩ = false ∧
    scanLines (some "B") [⟨'1' :: '2' :: ' ' :: 'A' :: 'p' :: "ples are red".data⟩] =
      [⟨"B", ⟨['1', '2', ' ', 'A']⟩, ⟨'p' :: "ples are red".data⟩⟩] :=
  ⟨Or.inl rfl, by decide, by decide,
    C10_variant_eats_first_letter 'A' 'p' "ples are red".data (Or.inl rfl)
      (by decide) (by decide)⟩

/-- The text of the last consumed option line for a given letter: among the
option lines at the head of `ls` (the ones the option loop consumes), those
whose letter is `c`, the value of the last one. -/
def lastOptValue (ls : List String) (c : Char) : Option String :=
  (((ls.takeWhile (fun l => isOptionLine l.data)).filter
      (fun l => optLetter l = c)).map optValue).getLast?

/-- The option line the specification prescribes for letter `c`:
`"\n<letter>. <optionText>"` when the letter is present, nothing otherwise. -/
def specOptLine (ls : List String) (c : Char) : String :=
  match lastOptValue ls c with
  | some v => "\n" ++ String.singleton c ++ ". " ++ v
  | none => ""

theorem getLast?_cons_or (a : α) (xs : List α) :
    (a :: xs).getLast? = xs.getLast?.or (some a) := by
  cases xs with
  | nil => rfl
  | cons y ys =>
    rw [List.getLast?_cons_cons]
    cases hG : (y :: ys).getLast? with
    | none => simp at hG
    | some v => rfl

theorem lastOptValue_cons (l : String) (rest : List String) (c : Char)
    (hl : isOptionLine l.data = true) :
    lastOptValue (l :: rest) c =
      if optLetter l = c then (lastOptValue rest c).or (some (optValue l))
      else lastOptValue rest c := by
  unfold lastOptValue
  rw [List.takeWhile_cons, if_pos hl, List.filter_cons]
  by_cases hc : optLetter l = c
  · rw [if_pos (by simpa using hc), if_pos hc, List.map_cons, getLast?_cons_or]
  · rw [if_neg (by simpa using hc), if_neg hc]

theorem lastOptValue_cons_not (l : String) (rest : List String) (c : Char)
    (hl : isOptionLine l.data = false) :
    lastOptValue (l :: rest) c = none := by
  unfold lastOptValue
  rw [List.takeWhile_cons, if_neg (by simp [hl])]
  rfl

theorem collectOptions_apply :
    ∀ (ls : List String) (opts : Char → Option String) (c : Char),
      (collectOptions opts ls).1 c = (lastOptValue ls c).or (opts c) := by
  intro ls
  induction ls with
  | nil => intro opts c; rfl
  | cons l rest ih =>
    intro opts c
    by_cases hl : isOptionLine l.data
    · have hstep : collectOptions opts (l :: rest) =
          collectOptions (fun x => if x = optLetter l then some (optValue l) else opts x) rest := by
        simp [collectOptions, hl]
      rw [hstep]
      simp only [ih]
      rw [lastOptValue_cons l rest c hl]
      by_cases hc : optLetter l = c
      · rw [if_pos hc, if_pos hc.symm]
        rcases hG : lastOptValue rest c with _ | v <;> simp
      · rw [if_neg hc, if_neg (fun h => hc h.symm)]
    · have hstep : collectOptions opts (l :: rest) = (opts, l :: rest) := by
        simp [collectOptions, hl]
      rw [hstep, lastOptValue_cons_not l rest c (by simpa using hl)]
      rfl

theorem collectOptions_empty_apply (ls : List String) (c : Char) :
    (collectOptions (fun _ => none) ls).1 c = lastOptValue ls c := by
  rw [collectOptions_apply]
  exact Option.or_none

/-- C4: every Section-A question is emitted through `sectionABranch`, and its
text is exactly the stem followed by one line per present option letter in the
fixed order A, B, C, D regardless of the input order of the option lines, each
formatted `"<letter>. <optionText>"`; a letter is present exactly when some
consumed option line carries it, and its text is that of the last such line
(later occurrences overwrite earlier ones).  The unconsumed suffix starts at
the first non-option line. -/
theorem C4_sectionA_text (qnum stem : String) (rest : List String) :
    (sectionABranch qnum stem rest).1 =
      { sec := "A", label := qnum,
        text := stem ++ specOptLine rest 'A' ++ specOptLine rest 'B' ++
          specOptLine rest 'C' ++ specOptLine rest 'D' } ∧
    (sectionABranch qnum stem rest).2 =
      rest.dropWhile (fun l => isOptionLine l.data) := by
  constructor
  · have htext : assembleText stem (collectOptions (fun _ => none) rest).1 =
        stem ++ specOptLine rest 'A' ++ specOptLine rest 'B' ++
          specOptLine rest 'C' ++ specOptLine rest 'D' := by
      unfold assembleText
      simp only [List.foldl_cons, List.foldl_nil, collectOptions_empty_apply]
      unfold specOptLine
      rcases lastOptValue rest 'A' with _ | vA <;>
        rcases lastOptValue rest 'B' with _ | vB <;>
          rcases lastOptValue rest 'C' with _ | vC <;>
            rcases lastOptValue rest 'D' with _ | vD <;>
              simp [String.append_assoc]
    simp only [sectionABranch]
    rw [htext]
  · simp [sectionABranch, collectOptions_snd]

/-- C6: the sorted question sequence is ascending in the key
(section rank A=1/B=2/C=3, 99 otherwise; then the leading integer of the label,
9999 when absent; then the trimmed label string), and the sort is stable: for
any key value, the questions carrying that key appear in the sorted output in
exactly their original extraction order. -/
theorem C6_sort_ordered_stable (qs : List Question) :
    List.Pairwise (fun a b => qLe a b = true) (sortQuestions qs) ∧
    ∀ k : Nat × Nat × String,
      (sortQuestions qs).filter (fun q => decide (sort_key q = k)) =
        qs.filter (fun q => decide (sort_key q = k)) := by
  constructor
  · exact List.sorted_mergeSort qLe_trans qLe_total qs
  · intro k
    have hperm : List.Perm (List.mergeSort qs qLe) qs := List.mergeSort_perm qs qLe
    have hpair : (qs.filter (fun q => decide (sort_key q = k))).Pairwise
        (fun a b => qLe a b = true) := by
      apply List.pairwise_of_forall_mem_list
      intro a ha b hb
      have ka : sort_key a = k := by simpa using (List.mem_filter.mp ha).2
      have kb : sort_key b = k := by simpa using (List.mem_filter.mp hb).2
      unfold qLe
      rw [ka, kb]
      exact keyLe_refl k
    have hsub : List.Sublist (qs.filter (fun q => decide (sort_key q = k))) (List.mergeSort qs qLe) :=
      List.sublist_mergeSort qLe_trans qLe_total hpair (List.filter_sublist qs)
    have hidem : (qs.filter (fun q => decide (sort_key q = k))).filter
        (fun q => decide (sort_key q = k)) = qs.filter (fun q => decide (sort_key q = k)) :=
      List.filter_eq_self.mpr (fun a ha => (List.mem_filter.mp ha).2)
    have hsub2 : List.Sublist (qs.filter (fun q => decide (sort_key q = k)))
        ((List.mergeSort qs qLe).filter (fun q => decide (sort_key q = k))) := by
      have h2 := hsub.filter (fun q => decide (sort_key q = k))
      rwa [hidem] at h2
    have hlen : ((List.mergeSort qs qLe).filter (fun q => decide (sort_key q = k))).length =
        (qs.filter (fun q => decide (sort_key q = k))).length :=
      (hperm.filter (fun q => decide (sort_key q = k))).length_eq
    exact (hsub2.eq_of_length hlen.symm).symm
